import Mathlib

/-!
Shallow embedding of the gomoku engine (bit-packed board, threat evaluator,
zobrist hashing, move generation and alpha-beta search) together with proofs
about the claims of its specification.

Bitboards are modelled as natural numbers: bit `i` of the number is bit `i`
of the Rust `BitArray<Msb0, u8>` of 380 logical bits (48 bytes, hence 384
storage bits, which is why shifts and complements are masked to 384 bits and
the move generator filters indices at or above 380).  Patterns are modelled
as lists of booleans in Msb0 order (index 0 first).  Machine integers
(`isize`) are modelled as `Int`; the engine only compares scores and adds
threat values, which stay far below 2^63, so no wrap-around modelling is
needed beyond the explicit `isize::MIN` / `isize::MAX` constants.
-/

set_option maxRecDepth 40000

namespace GomokuSpec

/-- Board side length (19), from goban.rs. -/
def GOBAN_SIZE : Nat := 19

/-- Number of bits of a bitboard (20 bits per row times 19 rows), from goban.rs. -/
def BIT_SIZE : Nat := 380

/-- Storage bits of the Rust bit array: 380 bits round up to 48 bytes. -/
def STORAGE_BITS : Nat := 384

/-- Mask selecting the 384 storage bits. -/
def mask384 : Nat := 2 ^ STORAGE_BITS - 1

/-- A bitboard: bit i of the number is bit i of the Rust bit array. -/
abbrev Bitboard := Nat

/-- isize::MAX, the maximal score. -/
def IMAX : Int := 2 ^ 63 - 1

/-- isize::MIN, the minimal score. -/
def IMIN : Int := -(2 ^ 63)

/-- The threat taxonomy of threat_evaluator.rs. -/
inductive Threat where
  | Five
  | StraightFour
  | Four
  | Three
  | BrokenThree
deriving DecidableEq, Repr, Fintype

/-- Numeric value of a threat: the repr(isize) discriminants of the Rust
enum (Five takes the default first discriminant 0). -/
def Threat.value : Threat → Int
  | .Five => 0
  | .StraightFour => 500000
  | .Four => 50000
  | .Three => 20000
  | .BrokenThree => 10000

/-- The hand-written PartialOrd::partial_cmp of Threat (threat_evaluator.rs
lines 26-39): Five is special-cased against everything else, all remaining
pairs compare by discriminant value. -/
def Threat.partialCmp : Threat → Threat → Ordering
  | .Five, .Five => .eq
  | .Five, _ => .lt
  | _, .Five => .gt
  | a, b => compare a.value b.value

/-- Rust PartialOrd::gt derived from partial_cmp. -/
def Threat.gtOrd (a b : Threat) : Bool := a.partialCmp b == .gt

/-- Evaluation result (evaluator.rs). -/
inductive Eval where
  | Won
  | Lost
  | Score (n : Int)
deriving DecidableEq, Repr

/-- The four scan directions of the evaluator plus the four others used by
the move-generator dilation; the value is the bit-index offset (goban.rs). -/
inductive Direction where
  | North
  | NorthEast
  | East
  | SouthEast
  | South
  | SouthWest
  | West
  | NorthWest
deriving DecidableEq, Repr

/-- Bit-index offset of a direction, the isize value of the Rust enum. -/
def Direction.offset : Direction → Int
  | .North => -(20 : Int)
  | .NorthEast => -(20 : Int) + 1
  | .East => 1
  | .SouthEast => 21
  | .South => 20
  | .SouthWest => 19
  | .West => -1
  | .NorthWest => -(20 : Int) - 1

/-- Bit lookup at a possibly signed index (the Rust code casts the isize to
usize only after the bound checks have ensured it is non-negative). -/
def bitGetI (b : Bitboard) (i : Int) : Bool :=
  decide (0 ≤ i) && b.testBit i.toNat

/-- is_inbound of threat_evaluator.rs: non-negative, below BIT_SIZE, and not
a positive multiple of GOBAN_SIZE (note: 19, not the row stride 20). -/
def isInbound (index : Int) : Bool :=
  decide (0 ≤ index) && decide (index < (BIT_SIZE : Int)) &&
    (index == 0 || index % (GOBAN_SIZE : Int) != 0)

/-- is_extractable of threat_evaluator.rs: the window start and its
one-past-the-end index are both in bound. -/
def isExtractable (index : Int) (axis : Direction) (length : Nat) : Bool :=
  isInbound index && isInbound (index + axis.offset * length)

/-- extract_pattern_length of threat_evaluator.rs: an 8-bit Msb0 pattern per
side, zero-initialised, whose first `length` bits are read off the board
along the axis. -/
def extractPatternLength (player opponent : Bitboard) (index : Int)
    (axis : Direction) (length : Nat) :
    Option (List Bool × List Bool × Nat) :=
  if isExtractable index axis length then
    some ((List.range 8).map
            (fun k => decide (k < length) && bitGetI player (index + axis.offset * k)),
          (List.range 8).map
            (fun k => decide (k < length) && bitGetI opponent (index + axis.offset * k)),
          length)
  else
    none

/-- extract_pattern of threat_evaluator.rs: try window lengths 7, 6, 5 and
keep the first extractable one. -/
def extractPattern (player opponent : Bitboard) (index : Int) (axis : Direction) :
    Option (List Bool × List Bool × Nat) :=
  [7, 6, 5].findSome? (fun length => extractPatternLength player opponent index axis length)

/-- compute_threat_seven: a 7-window is a Three exactly for 0011100. -/
def computeThreatSeven (slice : List Bool) : Option Threat :=
  if slice = [false, false, true, true, true, false, false] then some .Three else none

/-- compute_threat_six: 011110 is a StraightFour, 011100 and 001110 are
Threes, 010110 and 011010 are BrokenThrees. -/
def computeThreatSix (slice : List Bool) : Option Threat :=
  if slice = [false, true, true, true, true, false] then some .StraightFour
  else if slice = [false, true, true, true, false, false] ∨
          slice = [false, false, true, true, true, false] then some .Three
  else if slice = [false, true, false, true, true, false] ∨
          slice = [false, true, true, false, true, false] then some .BrokenThree
  else none

/-- compute_threat_five: popcount 5 is a Five, popcount 4 is a Four. -/
def computeThreatFive (slice : List Bool) : Option Threat :=
  match slice.count true with
  | 5 => some .Five
  | 4 => some .Four
  | _ => none

/-- compute_threat dispatches on the window length (the Rust code panics on
any other length; those lengths are never produced, see the safety claim). -/
def computeThreat (slice : List Bool) (length : Nat) : Option Threat :=
  match length with
  | 7 => computeThreatSeven slice
  | 6 => computeThreatSix slice
  | 5 => computeThreatFive slice
  | _ => none

/-- match_threat of threat_evaluator.rs, with the memo cache modelled as
transparent: the cache key (length - 5, raw byte) determines the first
`length` bits of the slice, so a hit returns exactly what compute_threat
would compute.  A window matches only if the opponent slice is empty. -/
def matchThreat (playerSlice opponentSlice : List Bool) (length : Nat) : Option Threat :=
  if opponentSlice.any id then none
  else computeThreat playerSlice length

/-- Value of the raw backing byte of an 8-bit Msb0 pattern, the cache index
used by match_threat. -/
def patternByte (l : List Bool) : Nat :=
  l.foldl (fun n b => 2 * n + (if b then 1 else 0)) 0

/-- get_strongest_threat of threat_evaluator.rs: keep the old threat when it
compares strictly greater, using the hand-written PartialOrd. -/
def getStrongestThreat (current : Option Threat) (t : Threat) : Threat :=
  match current with
  | none => t
  | some old => if old.gtOrd t then old else t

/-- Try the window lengths from max_length down to 5 and keep the first
matching threat: the inner pattern loop of evaluate_axis. -/
def sideMatch (pat opat : List Bool) (maxLength : Nat) : Option Threat :=
  ((List.range' 5 (maxLength - 4)).reverse).findSome?
    (fun len => matchThreat (pat.take len) (opat.take len) len)

/-- One side of the per-index threat matching of evaluate_axis: a Five
short-circuits (the error carries is_player), otherwise a match lowers
no_threats and merges into the strongest continuous threat. -/
def processSide (pat opat : List Bool) (maxLen : Nat) (isPlayer : Bool)
    (sct : Option (Threat × Bool)) (noThreats : Bool) :
    Except Bool (Option (Threat × Bool) × Bool) :=
  match sideMatch pat opat maxLen with
  | none => .ok (sct, noThreats)
  | some t =>
    if t = .Five then .error isPlayer
    else .ok (some (getStrongestThreat (sct.map Prod.fst) t, isPlayer), false)

/-- Per-index body of evaluate_axis: on a successful extraction no_threats
is reset to true and both sides are matched, player first. -/
def processIndex (player opponent : Bitboard) (axis : Direction) (i : Nat)
    (sct : Option (Threat × Bool)) (noThreats : Bool) :
    Except Bool (Option (Threat × Bool) × Bool) :=
  match extractPattern player opponent (i : Int) axis with
  | none => .ok (sct, noThreats)
  | some (pf, opf, maxLen) =>
    match processSide pf opf maxLen true sct true with
    | .error b => .error b
    | .ok (sct1, nt1) => processSide opf pf maxLen false sct1 nt1

/-- The index loop of evaluate_axis with its mutable state (score, strongest
continuous threat, no_threats) made explicit; flushing adds or subtracts the
threat value when no_threats holds or the last index is reached. -/
def evaluateAxisGo (player opponent : Bitboard) (axis : Direction) :
    List Nat → Int → Option (Threat × Bool) → Bool → Eval
  | [], score, _, _ => .Score score
  | i :: rest, score, sct, noThreats =>
    match processIndex player opponent axis i sct noThreats with
    | .error true => .Won
    | .error false => .Lost
    | .ok (sct1, nt1) =>
      if nt1 || i == BIT_SIZE then
        match sct1 with
        | some (t, isPlayer) =>
          evaluateAxisGo player opponent axis rest
            (if isPlayer then score + t.value else score - t.value) none nt1
        | none => evaluateAxisGo player opponent axis rest score none nt1
      else
        evaluateAxisGo player opponent axis rest score sct1 nt1

/-- evaluate_axis of threat_evaluator.rs: scan indices 0..=BIT_SIZE. -/
def evaluateAxis (player opponent : Bitboard) (axis : Direction) : Eval :=
  evaluateAxisGo player opponent axis (List.range (BIT_SIZE + 1)) 0 none true

/-- The four scan axes of evaluate_player, in source order. -/
def scanAxes : List Direction := [.East, .South, .SouthWest, .SouthEast]

/-- Axis loop of evaluate_player: sum the axis scores, short-circuiting on a
Won or Lost verdict. -/
def evaluatePlayerGo (player opponent : Bitboard) : List Direction → Int → Eval
  | [], total => .Score total
  | ax :: rest, total =>
    match evaluateAxis player opponent ax with
    | .Score s => evaluatePlayerGo player opponent rest (total + s)
    | e => e

/-- evaluate_player of threat_evaluator.rs (also the Evaluator::evaluate
entry point). -/
def evaluatePlayer (player opponent : Bitboard) : Eval :=
  evaluatePlayerGo player opponent scanAxes 0

/-- All boolean lists of a given length, used to decide pattern facts. -/
def allBoolLists : Nat → List (List Bool)
  | 0 => [[]]
  | n + 1 => (allBoolLists n).flatMap (fun l => [false :: l, true :: l])

/-- A stone colour (goban.rs, newer revision used by gomoku.rs). -/
inductive Stone where
  | Black
  | White
deriving DecidableEq, Repr

/-- A player (gomoku.rs: the opponent plays Black, the computer White). -/
inductive Player where
  | Opponent
  | Computer
deriving DecidableEq, Repr

/-- A board coordinate, rows and columns in [0, 19). -/
structure Position where
  row : Nat
  col : Nat
deriving DecidableEq, Repr

/-- A move: a stone placed at a position. -/
structure Move where
  stone : Stone
  position : Position
deriving DecidableEq, Repr

/-- Game state surfaced to the caller (gomoku.rs). -/
inductive GameState where
  | InProgress
  | Won (p : Player)
deriving DecidableEq, Repr

/-- The zobrist table: a (cell index, stone index) indexed family of random
64-bit words, abstracted as an arbitrary function since the table is drawn
at startup (zobrist_hashing.rs). -/
abbrev ZTable := Nat → Nat → Nat

/-- Stone index into the zobrist table: Black is 0, White is 1. -/
def stoneIndex : Stone → Nat
  | .Black => 0
  | .White => 1

/-- Zobrist position index: row * GOBAN_SIZE + col (stride 19, unlike the
bitboard stride 20), from zobrist_hashing.rs. -/
def zobristPositionIndex (p : Position) : Nat :=
  p.row * GOBAN_SIZE + p.col

/-- update_hash of zobrist_hashing.rs: XOR the (position, stone) table entry
into the running hash. -/
def updateHash (table : ZTable) (hash : Nat) (playedMove : Move) : Nat :=
  hash ^^^ table (zobristPositionIndex playedMove.position) (stoneIndex playedMove.stone)

/-- The board: one bitboard per stone colour plus the running zobrist hash.
Cell (row, col) lives at bit row * 20 + col; bit 19 of every row is the
sentinel that is never set. -/
structure Goban where
  black : Bitboard
  white : Bitboard
  hash : Nat
deriving DecidableEq, Repr

/-- The empty board with the initial hash 0. -/
def Goban.empty : Goban := { black := 0, white := 0, hash := 0 }

/-- Cell index of a position in the bitboards: row stride is 20. -/
def cellIndex (p : Position) : Nat :=
  p.row * (GOBAN_SIZE + 1) + p.col

/-- Modelled from the spec: the stone lookup of the newer goban.rs revision
used by gomoku.rs (absent from src, which holds an older goban.rs); a cell
holds the stone whose bit is set, black checked first. -/
def Goban.get (g : Goban) (row col : Nat) : Option Stone :=
  let index := row * (GOBAN_SIZE + 1) + col
  if g.black.testBit index then some .Black
  else if g.white.testBit index then some .White
  else none

/-- Modelled from the spec: apply_move of the newer goban.rs revision
(absent from src): set the stone bit of the move and XOR-update the hash in
the same step. -/
def Goban.applyMove (table : ZTable) (g : Goban) (m : Move) : Goban :=
  match m.stone with
  | .Black =>
    { g with black := g.black ||| 2 ^ cellIndex m.position,
             hash := updateHash table g.hash m }
  | .White =>
    { g with white := g.white ||| 2 ^ cellIndex m.position,
             hash := updateHash table g.hash m }

/-- Modelled from the spec: evaluate of the newer goban.rs revision (absent
from src): run the threat evaluator with the given side's stones as the own
bits and the other side's as the opponent bits. -/
def Goban.evaluate (g : Goban) (p : Player) : Eval :=
  match p with
  | .Computer => evaluatePlayer g.white g.black
  | .Opponent => evaluatePlayer g.black g.white

/-- Shift a bitboard by a direction offset inside the 384 storage bits:
positive offsets move bits to higher indices, as bitvec shift_right does on
an Msb0 array; bits shifted out are dropped. -/
def shiftDir (b : Bitboard) (n : Int) : Bitboard :=
  if 0 ≤ n then (b <<< n.toNat) &&& mask384
  else b >>> (-n).toNat

/-- dilate of goban.rs: a bitboard ORed with its shifted copy. -/
def dilate (b : Bitboard) (axis : Direction) : Bitboard :=
  b ||| shiftDir b axis.offset

/-- Complement of a bitboard within the 384 storage bits (the Rust ! on the
bit array). -/
def bbNot (b : Bitboard) : Bitboard :=
  mask384 ^^^ (b &&& mask384)

/-- The eight dilation directions in declaration order (Direction::iter). -/
def axesAll : List Direction :=
  [.North, .NorthEast, .East, .SouthEast, .South, .SouthWest, .West, .NorthWest]

/-- One growth step of get_limited_moves: OR in the dilation of the played
set along all eight axes (within a step every dilation reads the same
played set, and afterwards the played set becomes the grown set). -/
def growOnce (s : Bitboard) : Bitboard :=
  axesAll.foldl (fun l ax => l ||| dilate s ax) s

/-- Iterate the growth step. -/
def grow : Nat → Bitboard → Bitboard
  | 0, s => s
  | n + 1, s => grow n (growOnce s)

/-- Turn the ones of a bitboard into positions, skipping the sentinel
column and indices beyond BIT_SIZE, in ascending index order (the iter_ones
loop shared by get_possible_moves and get_limited_moves). -/
def positionsOfBits (b : Bitboard) : List Position :=
  (List.range STORAGE_BITS).filterMap (fun index =>
    if b.testBit index then
      let row := index / (GOBAN_SIZE + 1)
      let col := index - row * (GOBAN_SIZE + 1)
      if col = GOBAN_SIZE ∨ BIT_SIZE ≤ index then none
      else some { row := row, col := col }
    else none)

/-- get_limited_moves of goban.rs: dilate the played set `steps` times along
all eight axes, intersect with the playable (empty) set, and list the
resulting cells. -/
def Goban.getLimitedMoves (g : Goban) (steps : Nat) : List Position :=
  let played := (g.black ||| g.white) &&& mask384
  let playable := bbNot played
  let limited := grow steps played
  positionsOfBits (limited &&& playable)

/-- game_state of gomoku.rs: evaluate the current board for the computer. -/
def gameState (g : Goban) : GameState :=
  match g.evaluate .Computer with
  | .Won => .Won .Computer
  | .Lost => .Won .Opponent
  | .Score _ => .InProgress

/-- The stone a player places (gomoku.rs). -/
def stoneOf : Player → Stone
  | .Opponent => .Black
  | .Computer => .White

/-- play of gomoku.rs: reject out-of-bounds or occupied positions without
touching the board, otherwise apply the move and report the game state.
The second component is the board after the call. -/
def play (table : ZTable) (g : Goban) (position : Position) (player : Player) :
    Except String GameState × Goban :=
  if position.row ≥ GOBAN_SIZE ∨ position.col ≥ GOBAN_SIZE ∨
      g.get position.row position.col ≠ none then
    (.error "Invalid move", g)
  else
    let g1 := g.applyMove table { stone := stoneOf player, position := position }
    (.ok (gameState g1), g1)

/-- The branching factor cap of gomoku.rs. -/
def BRANCHING_FACTOR_THRESHOLD : Nat := 10

/-- A candidate child node with its pre-score (NodeScore of gomoku.rs; its
Ord compares scores only). -/
structure NodeScore where
  node : Goban
  position : Position
  score : Int
deriving DecidableEq, Repr

/-- Numeric pre-score of an evaluation (get_child_nodes of gomoku.rs). -/
def evalScore : Eval → Int
  | .Won => IMAX
  | .Lost => IMIN
  | .Score n => n

/-- The scored candidate children of get_child_nodes, before ordering:
one node per limited move, pre-scored by a one-ply evaluation for the
moving player. -/
def scoredChildren (table : ZTable) (node : Goban) (player : Player) : List NodeScore :=
  (node.getLimitedMoves 2).map (fun position =>
    let child := node.applyMove table { stone := stoneOf player, position := position }
    { node := child, position := position, score := evalScore (child.evaluate player) })

/-- get_child_nodes of gomoku.rs: push every scored candidate on a max-heap
keyed by score, pop in descending score order, and keep the first
BRANCHING_FACTOR_THRESHOLD of them (modelled as a descending merge sort). -/
def getChildNodes (table : ZTable) (node : Goban) (player : Player) : List NodeScore :=
  ((scoredChildren table node player).mergeSort
      (fun a b => decide (b.score ≤ a.score))).take BRANCHING_FACTOR_THRESHOLD

/-- An abstract search instance: an evaluation and a child generator, both
indexed by the maximizing flag (true evaluates for and moves the computer).
minimax of gomoku.rs is the alpha-beta recursion over such an instance; the
transposition table is modelled as transparent memoization. -/
structure SearchModel (σ : Type) where
  eval : σ → Bool → Eval
  children : σ → Bool → List σ

/-- The maximizing child loop of minimax: fold the children, taking the
running max, stopping once the running best reaches beta, and raising alpha
to the running best after the check. -/
def abLoopMax {σ : Type} (rec : σ → Int → Int → Int) :
    List σ → Int → Int → Int → Int
  | [], best, _, _ => best
  | c :: cs, best, alpha, beta =>
    let best1 := max best (rec c alpha beta)
    if beta ≤ best1 then best1
    else abLoopMax rec cs best1 (max alpha best1) beta

/-- The minimizing child loop of minimax, the mirror image. -/
def abLoopMin {σ : Type} (rec : σ → Int → Int → Int) :
    List σ → Int → Int → Int → Int
  | [], best, _, _ => best
  | c :: cs, best, alpha, beta =>
    let best1 := min best (rec c alpha beta)
    if best1 ≤ alpha then best1
    else abLoopMin rec cs best1 alpha (min beta best1)

/-- minimax of gomoku.rs: evaluate the node for the side given by the
maximizing flag; Won and Lost are terminal; at depth 0 the numeric score is
returned (negated for the minimizing side); otherwise recurse over the
ordered children with the alpha-beta loops. -/
def minimaxAB {σ : Type} (M : SearchModel σ) :
    σ → Nat → Int → Int → Bool → Int
  | node, depth, alpha, beta, maximizing =>
    match M.eval node maximizing with
    | .Won => if maximizing then IMAX else IMIN
    | .Lost => if maximizing then IMIN else IMAX
    | .Score n =>
      match depth with
      | 0 => n * (if maximizing then 1 else -1)
      | d + 1 =>
        if maximizing then
          abLoopMax (fun c a b => minimaxAB M c d a b false)
            (M.children node true) IMIN alpha beta
        else
          abLoopMin (fun c a b => minimaxAB M c d a b true)
            (M.children node false) IMAX alpha beta

/-- The maximizing child loop with the pruning break removed: alpha and
beta no longer influence anything, leaving a plain running max. -/
def plainLoopMax {σ : Type} (v : σ → Int) : List σ → Int → Int
  | [], best => best
  | c :: cs, best => plainLoopMax v cs (max best (v c))

/-- The minimizing child loop with the pruning break removed. -/
def plainLoopMin {σ : Type} (v : σ → Int) : List σ → Int → Int
  | [], best => best
  | c :: cs, best => plainLoopMin v cs (min best (v c))

/-- minimax with the pruning breaks removed: the same recursion over the
same ordered child lists, expanding every child. -/
def minimaxPlain {σ : Type} (M : SearchModel σ) : σ → Nat → Bool → Int
  | node, depth, maximizing =>
    match M.eval node maximizing with
    | .Won => if maximizing then IMAX else IMIN
    | .Lost => if maximizing then IMIN else IMAX
    | .Score n =>
      match depth with
      | 0 => n * (if maximizing then 1 else -1)
      | d + 1 =>
        if maximizing then
          plainLoopMax (fun c => minimaxPlain M c d false) (M.children node true) IMIN
        else
          plainLoopMin (fun c => minimaxPlain M c d true) (M.children node false) IMAX

/-- The concrete search instance of the program: the threat evaluator as
evaluation and get_child_nodes as child generator. -/
def gomokuModel (table : ZTable) : SearchModel Goban where
  eval := fun g maximizing =>
    g.evaluate (if maximizing then .Computer else .Opponent)
  children := fun g maximizing =>
    (getChildNodes table g (if maximizing then .Computer else .Opponent)).map (·.node)

/-- get_best_move of gomoku.rs: max_by on the score, later entries winning
ties (Iterator::max_by keeps the last maximum). -/
def getBestMove (moves : List (Position × Int)) : Option Position :=
  (moves.foldl (fun acc pm =>
    match acc with
    | none => some pm
    | some best => if best.2 ≤ pm.2 then some pm else some best) none).map (·.1)

/-- The panics of play_computer_move. -/
inductive Panic where
  | badDepth
  | noMoveFound
  | invalidMoveFound
deriving DecidableEq, Repr

/-- play_computer_move of gomoku.rs: reject bad depths, score every root
child by a depth-1 minimizing search over the full window, play the best
one; with no candidate the No-move panic is signalled. -/
def playComputerMove (table : ZTable) (g : Goban) (depth : Nat) :
    Except Panic (Goban × GameState) :=
  if depth < 2 then .error .badDepth
  else if depth % 2 ≠ 0 then .error .badDepth
  else
    let children := getChildNodes table g .Computer
    let moves := children.map (fun c =>
      (c.position, minimaxAB (gomokuModel table) c.node (depth - 1) IMIN IMAX false))
    match getBestMove moves with
    | some position =>
      match play table g position .Computer with
      | (.ok st, g1) => .ok (g1, st)
      | (.error _, _) => .error .invalidMoveFound
    | none => .error .noMoveFound

/-- The board has no empty cell. -/
def boardFull (g : Goban) : Prop :=
  ∀ row : Nat, row < GOBAN_SIZE → ∀ col : Nat, col < GOBAN_SIZE → g.get row col ≠ none

/-- A concrete non-degenerate zobrist table for witnesses. -/
def table0 : ZTable := fun i s => 2 * i + s + 1

/-- A board whose first row starts with five black stones. -/
def gFive : Goban := { black := 31, white := 0, hash := 0 }

/-- A board with a single black stone at (0, 0). -/
def gOcc : Goban := { black := 1, white := 0, hash := 0 }

/-- The bitboard with every one of the 361 cells set. -/
def fullBits : Bitboard :=
  (List.range GOBAN_SIZE).foldl
    (fun acc r => acc + ((2 ^ GOBAN_SIZE - 1) <<< (r * (GOBAN_SIZE + 1)))) 0

/-- A completely full board (all cells black). -/
def gFull : Goban := { black := fullBits, white := 0, hash := 0 }

/-! Theorems.  First the window-classification facts of the threat
evaluator, then hashing, board mutation, move generation, and the
alpha-beta search. -/

theorem mem_allBoolLists (l : List Bool) (n : Nat) (h : l.length = n) :
    l ∈ allBoolLists n := by
  induction l generalizing n with
  | nil => subst h; simp [allBoolLists]
  | cons b t ih =>
    subst h
    have ht := ih t.length rfl
    simp only [List.length_cons, allBoolLists, List.mem_flatMap]
    exact ⟨t, ht, by cases b <;> simp⟩

theorem computeThreatFive_char (p : List Bool) (hp : p.length = 5) (t : Threat) :
    computeThreatFive p = some t ↔
      ((t = .Five ∧ p.count true = 5) ∨ (t = .Four ∧ p.count true = 4)) := by
  have H : ∀ q ∈ allBoolLists 5, ∀ t' : Threat, computeThreatFive q = some t' ↔
      ((t' = .Five ∧ q.count true = 5) ∨ (t' = .Four ∧ q.count true = 4)) := by decide
  exact H p (mem_allBoolLists p 5 hp) t

theorem computeThreatSix_char (p : List Bool) (hp : p.length = 6) (t : Threat) :
    computeThreatSix p = some t ↔
      ((t = .StraightFour ∧ p = [false, true, true, true, true, false]) ∨
       (t = .Three ∧ (p = [false, true, true, true, false, false] ∨
                      p = [false, false, true, true, true, false])) ∨
       (t = .BrokenThree ∧ (p = [false, true, false, true, true, false] ∨
                            p = [false, true, true, false, true, false]))) := by
  have H : ∀ q ∈ allBoolLists 6, ∀ t' : Threat, computeThreatSix q = some t' ↔
      ((t' = .StraightFour ∧ q = [false, true, true, true, true, false]) ∨
       (t' = .Three ∧ (q = [false, true, true, true, false, false] ∨
                       q = [false, false, true, true, true, false])) ∨
       (t' = .BrokenThree ∧ (q = [false, true, false, true, true, false] ∨
                             q = [false, true, true, false, true, false]))) := by decide
  exact H p (mem_allBoolLists p 6 hp) t

theorem computeThreatSeven_char (p : List Bool) (hp : p.length = 7) (t : Threat) :
    computeThreatSeven p = some t ↔
      (t = .Three ∧ p = [false, false, true, true, true, false, false]) := by
  have H : ∀ q ∈ allBoolLists 7, ∀ t' : Threat, computeThreatSeven q = some t' ↔
      (t' = .Three ∧ q = [false, false, true, true, true, false, false]) := by decide
  exact H p (mem_allBoolLists p 7 hp) t

theorem matchThreat_opponent_split (p o : List Bool) (L : Nat) (t : Threat) :
    matchThreat p o L = some t ↔ ((∀ x ∈ o, x = false) ∧ computeThreat p L = some t) := by
  by_cases ho : ∀ x ∈ o, x = false
  · have hany : o.any id = false := by
      rw [List.any_eq_false]
      intro x hx
      simp [ho x hx]
    rw [matchThreat, hany]
    rw [if_neg (by simp)]
    exact ⟨fun h => ⟨ho, h⟩, fun h => h.2⟩
  · have hany : o.any id = true := by
      rw [List.any_eq_true]
      push_neg at ho
      obtain ⟨x, hx, hxf⟩ := ho
      exact ⟨x, hx, by simpa using hxf⟩
    rw [matchThreat, hany]
    rw [if_pos rfl]
    exact ⟨fun h => absurd h (by simp), fun h => absurd h.1 ho⟩

/-- C1: for every extracted window, the classification matches the spec's
pattern table exactly: a threat needs an empty opponent slice; a 5-window
with all 5 own bits is Five, with exactly 4 of 5 a Four; a 6-window is
StraightFour exactly for 011110, Three exactly for 011100 or 001110,
BrokenThree exactly for 010110 or 011010; a 7-window is Three exactly for
0011100; every other window yields no threat. -/
theorem threat_pattern_table (p o : List Bool) (t : Threat) :
    (p.length = 5 →
      (matchThreat p o 5 = some t ↔
        ((∀ x ∈ o, x = false) ∧
         ((t = .Five ∧ p.count true = 5) ∨ (t = .Four ∧ p.count true = 4))))) ∧
    (p.length = 6 →
      (matchThreat p o 6 = some t ↔
        ((∀ x ∈ o, x = false) ∧
         ((t = .StraightFour ∧ p = [false, true, true, true, true, false]) ∨
          (t = .Three ∧ (p = [false, true, true, true, false, false] ∨
                         p = [false, false, true, true, true, false])) ∨
          (t = .BrokenThree ∧ (p = [false, true, false, true, true, false] ∨
                               p = [false, true, true, false, true, false])))))) ∧
    (p.length = 7 →
      (matchThreat p o 7 = some t ↔
        ((∀ x ∈ o, x = false) ∧ t = .Three ∧
         p = [false, false, true, true, true, false, false]))) := by
  refine ⟨fun hp => ?_, fun hp => ?_, fun hp => ?_⟩
  · rw [matchThreat_opponent_split]
    have : computeThreat p 5 = computeThreatFive p := rfl
    rw [this, computeThreatFive_char p hp t]
  · rw [matchThreat_opponent_split]
    have : computeThreat p 6 = computeThreatSix p := rfl
    rw [this, computeThreatSix_char p hp t]
  · rw [matchThreat_opponent_split]
    have : computeThreat p 7 = computeThreatSeven p := rfl
    rw [this, computeThreatSeven_char p hp t]

theorem threat_pattern_table_witness :
    matchThreat [true, true, true, true, false] [false, false, false, false, false] 5 =
      some Threat.Four :=
  ((threat_pattern_table [true, true, true, true, false]
      [false, false, false, false, false] Threat.Four).1 rfl).mpr
    ⟨by decide, Or.inr ⟨rfl, by decide⟩⟩

theorem patternByte_go_lt (bs : List Bool) :
    ∀ n : Nat, bs.foldl (fun n b => 2 * n + (if b then 1 else 0)) n < (n + 1) * 2 ^ bs.length := by
  induction bs with
  | nil => intro n; simp
  | cons b bs ih =>
    intro n
    have h1 := ih (2 * n + (if b then 1 else 0))
    have hb : (if b then 1 else 0) ≤ 1 := by cases b <;> simp
    calc (b :: bs).foldl (fun n b => 2 * n + (if b then 1 else 0)) n
        = bs.foldl (fun n b => 2 * n + (if b then 1 else 0)) (2 * n + (if b then 1 else 0)) := rfl
      _ < (2 * n + (if b then 1 else 0) + 1) * 2 ^ bs.length := h1
      _ ≤ (2 * (n + 1)) * 2 ^ bs.length := by
          apply Nat.mul_le_mul_right
          omega
      _ = (n + 1) * 2 ^ (b :: bs).length := by
          rw [List.length_cons, pow_succ]
          ring

theorem patternByte_append_false (bs : List Bool) :
    patternByte (bs ++ [false]) = 2 * patternByte bs := by
  rw [patternByte, List.foldl_append]
  simp [patternByte]

theorem patternByte_map_range8 (f : Nat → Bool) (h7 : f 7 = false) :
    patternByte ((List.range 8).map f) ≤ 254 := by
  have hr : List.range 8 = List.range 7 ++ [7] := by decide
  have hmap : (List.range 8).map f = (List.range 7).map f ++ [false] := by
    rw [hr, List.map_append]
    simp [h7]
  rw [hmap, patternByte_append_false]
  have hlt := patternByte_go_lt ((List.range 7).map f) 0
  rw [List.length_map, List.length_range] at hlt
  rw [patternByte] at *
  omega

theorem extractPatternLength_some (player opponent : Bitboard) (index : Int)
    (axis : Direction) (length : Nat) (p o : List Bool) (L : Nat)
    (h : extractPatternLength player opponent index axis length = some (p, o, L)) :
    L = length ∧
    p = (List.range 8).map
          (fun k => decide (k < length) && bitGetI player (index + axis.offset * k)) ∧
    o = (List.range 8).map
          (fun k => decide (k < length) && bitGetI opponent (index + axis.offset * k)) := by
  rw [extractPatternLength] at h
  split at h
  · injection h with h1
    injection h1 with hp h2
    injection h2 with ho hL
    exact ⟨hL.symm, hp.symm, ho.symm⟩
  · cases h

theorem extractPattern_cases (player opponent : Bitboard) (index : Int)
    (axis : Direction) (r : List Bool × List Bool × Nat)
    (h : extractPattern player opponent index axis = some r) :
    extractPatternLength player opponent index axis 7 = some r ∨
    extractPatternLength player opponent index axis 6 = some r ∨
    extractPatternLength player opponent index axis 5 = some r := by
  rw [extractPattern] at h
  cases h7 : extractPatternLength player opponent index axis 7 with
  | some v =>
    left
    rw [List.findSome?_cons, h7] at h
    exact h
  | none =>
    cases h6 : extractPatternLength player opponent index axis 6 with
    | some v =>
      right; left
      rw [List.findSome?_cons, h7, List.findSome?_cons, h6] at h
      exact h
    | none =>
      cases h5 : extractPatternLength player opponent index axis 5 with
      | some v =>
        right; right
        rw [List.findSome?_cons, h7, List.findSome?_cons, h6, List.findSome?_cons, h5] at h
        exact h
      | none =>
        rw [List.findSome?_cons, h7, List.findSome?_cons, h6, List.findSome?_cons, h5] at h
        simp [List.findSome?] at h

/-- C10: every window reaching match_threat from the extraction pipeline
has length 5, 6 or 7, so the cache group index length - 5 is in 0, 1, 2,
and the raw byte backing the pattern is at most 254 (bit 7 of the 8-bit
pattern is never set), so the [3][255] cache array is never indexed out of
bounds. -/
theorem threat_cache_index_in_bounds (player opponent : Bitboard) (index : Int)
    (axis : Direction) (p o : List Bool) (L : Nat)
    (h : extractPattern player opponent index axis = some (p, o, L)) :
    (L = 5 ∨ L = 6 ∨ L = 7) ∧
    ∀ l : Nat, 5 ≤ l → l ≤ L →
      l - 5 < 3 ∧ patternByte p ≤ 254 ∧ patternByte o ≤ 254 := by
  rcases extractPattern_cases player opponent index axis (p, o, L) h with h' | h' | h' <;>
    obtain ⟨hL, hp, ho⟩ := extractPatternLength_some _ _ _ _ _ _ _ _ h' <;>
    subst hL <;> subst hp <;> subst ho <;>
    exact ⟨by omega, fun l h5 hl =>
      ⟨by omega, patternByte_map_range8 _ (by simp), patternByte_map_range8 _ (by simp)⟩⟩

theorem threat_cache_index_in_bounds_witness :
    ((7 : Nat) = 5 ∨ (7 : Nat) = 6 ∨ (7 : Nat) = 7) ∧
    ∀ l : Nat, 5 ≤ l → l ≤ 7 →
      l - 5 < 3 ∧
      patternByte [true, true, true, true, true, false, false, false] ≤ 254 ∧
      patternByte [false, false, false, false, false, false, false, false] ≤ 254 :=
  threat_cache_index_in_bounds 31 0 0 .East
    [true, true, true, true, true, false, false, false]
    [false, false, false, false, false, false, false, false] 7 (by decide)

/-- C4 is violated by the code: with own stones at (1,16), (1,17), (1,18)
and (2,0) (bits 36, 37, 38, 40) the evaluator extracts a window at bit 36
on the East axis, and its 5-slice - bits 36..40, whose last bit lies in row
2 while its first lies in row 1 - is classified as a Four, so a matched
window does wrap from the end of one row into the start of the next. -/
theorem wrapped_window_matches_four :
    extractPattern (2 ^ 36 + 2 ^ 37 + 2 ^ 38 + 2 ^ 40) 0 36 .East =
      some ([true, true, true, false, true, false, false, false],
            [false, false, false, false, false, false, false, false], 7) ∧
    sideMatch [true, true, true, false, true, false, false, false]
      [false, false, false, false, false, false, false, false] 7 = some .Four ∧
    matchThreat [true, true, true, false, true] [false, false, false, false, false] 5 =
      some .Four ∧
    36 / (GOBAN_SIZE + 1) = 1 ∧ (36 + 4) / (GOBAN_SIZE + 1) = 2 := by
  refine ⟨by decide, by decide, by decide, by decide, by decide⟩

/-- C2: update_hash is exactly the XOR of the table entry of the move into
the old hash, and therefore folding update_hash over any two permutations
of a list of moves from the same initial hash yields the same final hash. -/
theorem update_hash_xor_order_independent (table : ZTable) :
    (∀ (hash : Nat) (m : Move),
      updateHash table hash m =
        hash ^^^ table (zobristPositionIndex m.position) (stoneIndex m.stone)) ∧
    (∀ (hash : Nat) (l1 l2 : List Move), l1.Perm l2 →
      l1.foldl (updateHash table) hash = l2.foldl (updateHash table) hash) := by
  refine ⟨fun hash m => rfl, fun hash l1 l2 hperm => ?_⟩
  induction hperm generalizing hash with
  | nil => rfl
  | cons x _ ih => exact ih _
  | swap x y l =>
    have hxy : updateHash table (updateHash table hash y) x =
        updateHash table (updateHash table hash x) y := by
      unfold updateHash
      rw [Nat.xor_assoc, Nat.xor_assoc,
        Nat.xor_comm (table (zobristPositionIndex y.position) (stoneIndex y.stone))]
    simp only [List.foldl_cons]
    rw [hxy]
  | trans _ _ ih1 ih2 => exact (ih1 _).trans (ih2 _)

theorem update_hash_xor_order_independent_witness :
    [Move.mk .Black ⟨0, 0⟩, Move.mk .White ⟨1, 2⟩].foldl (updateHash table0) 0 =
      [Move.mk .White ⟨1, 2⟩, Move.mk .Black ⟨0, 0⟩].foldl (updateHash table0) 0 :=
  (update_hash_xor_order_independent table0).2 0 _ _
    (List.Perm.swap (Move.mk .White ⟨1, 2⟩) (Move.mk .Black ⟨0, 0⟩) [])

/-- C6 is violated by the code: the hand-written PartialOrd of Threat makes
Five compare strictly less than StraightFour (and every other non-Five
threat), not greater, so Five is not stronger than every other threat under
the implemented ordering. -/
theorem five_compares_less :
    Threat.partialCmp .Five .StraightFour = .lt ∧
    Threat.gtOrd .Five .StraightFour = false := by
  refine ⟨rfl, rfl⟩

/-- C6 amended: in the implemented PartialOrd, Five compares strictly less
than every other threat (its ordering position is unreachable in scoring,
since a Five immediately yields Won or Lost); the non-Five threats are
strictly ordered StraightFour above Four above Three above BrokenThree,
and their score contributions (the repr(isize) values added or subtracted
per axis) are strictly decreasing in the same order. -/
theorem threat_order_amended :
    (Threat.partialCmp .Five .StraightFour = .lt ∧
     Threat.partialCmp .Five .Four = .lt ∧
     Threat.partialCmp .Five .Three = .lt ∧
     Threat.partialCmp .Five .BrokenThree = .lt) ∧
    (Threat.partialCmp .StraightFour .Five = .gt ∧
     Threat.partialCmp .Four .Five = .gt ∧
     Threat.partialCmp .Three .Five = .gt ∧
     Threat.partialCmp .BrokenThree .Five = .gt) ∧
    (Threat.partialCmp .StraightFour .Four = .gt ∧
     Threat.partialCmp .Four .Three = .gt ∧
     Threat.partialCmp .Three .BrokenThree = .gt) ∧
    (Threat.value .StraightFour > Threat.value .Four ∧
     Threat.value .Four > Threat.value .Three ∧
     Threat.value .Three > Threat.value .BrokenThree) := by
  refine ⟨⟨rfl, rfl, rfl, rfl⟩, ⟨rfl, rfl, rfl, rfl⟩, ⟨rfl, rfl, rfl⟩, by decide⟩

/-- C5: play returns an error and leaves the board (hence its hash)
unchanged whenever the position is out of bounds or occupied, and for every
in-bounds empty position it applies the move and returns the resulting game
state. -/
theorem play_invalid_or_applies (table : ZTable) (g : Goban) (position : Position)
    (player : Player) :
    (position.row ≥ GOBAN_SIZE ∨ position.col ≥ GOBAN_SIZE ∨
        g.get position.row position.col ≠ none →
      play table g position player = (.error "Invalid move", g) ∧
      (play table g position player).2.hash = g.hash) ∧
    (position.row < GOBAN_SIZE → position.col < GOBAN_SIZE →
        g.get position.row position.col = none →
      play table g position player =
        (.ok (gameState (g.applyMove table { stone := stoneOf player, position := position })),
         g.applyMove table { stone := stoneOf player, position := position })) := by
  constructor
  · intro h
    rw [play, if_pos h]
    exact ⟨rfl, rfl⟩
  · intro h1 h2 h3
    rw [play, if_neg]
    push_neg
    exact ⟨h1, h2, h3⟩

theorem play_invalid_or_applies_witness :
    (play table0 gOcc ⟨0, 0⟩ .Computer = (.error "Invalid move", gOcc) ∧
     (play table0 gOcc ⟨0, 0⟩ .Computer).2.hash = gOcc.hash) ∧
    play table0 Goban.empty ⟨5, 5⟩ .Computer =
      (.ok (gameState (Goban.empty.applyMove table0 { stone := stoneOf .Computer, position := ⟨5, 5⟩ })),
       Goban.empty.applyMove table0 { stone := stoneOf .Computer, position := ⟨5, 5⟩ }) :=
  ⟨(play_invalid_or_applies table0 gOcc ⟨0, 0⟩ .Computer).1 (Or.inr (Or.inr (by decide))),
   (play_invalid_or_applies table0 Goban.empty ⟨5, 5⟩ .Computer).2
     (by decide) (by decide) (by decide)⟩

theorem nodeScore_desc_trans (a b c : NodeScore) :
    (decide (b.score ≤ a.score)) = true → (decide (c.score ≤ b.score)) = true →
    (decide (c.score ≤ a.score)) = true := by
  simp only [decide_eq_true_eq]
  exact fun h1 h2 => le_trans h2 h1

theorem nodeScore_desc_total (a b : NodeScore) :
    ((decide (b.score ≤ a.score)) || (decide (a.score ≤ b.score))) = true := by
  simp only [Bool.or_eq_true, decide_eq_true_eq]
  exact (le_total b.score a.score)

/-- C9: get_child_nodes returns at most BRANCHING_FACTOR_THRESHOLD (10)
children, in descending pre-score order; together with some rest they are a
permutation of all scored candidates generated from get_limited_moves(2),
and every kept child pre-scores at least as high as every discarded one, so
minimax never expands more than 10 children per node. -/
theorem child_nodes_top_ten (table : ZTable) (node : Goban) (player : Player) :
    (getChildNodes table node player).length ≤ BRANCHING_FACTOR_THRESHOLD ∧
    List.Pairwise (fun a b : NodeScore => b.score ≤ a.score)
      (getChildNodes table node player) ∧
    ∃ rest : List NodeScore,
      (getChildNodes table node player ++ rest).Perm (scoredChildren table node player) ∧
      ∀ x ∈ getChildNodes table node player, ∀ y ∈ rest, y.score ≤ x.score := by
  have hsorted : List.Pairwise
      (fun a b : NodeScore => (decide (b.score ≤ a.score)) = true)
      ((scoredChildren table node player).mergeSort
        (fun a b => decide (b.score ≤ a.score))) :=
    @List.sorted_mergeSort NodeScore (fun a b => decide (b.score ≤ a.score))
      nodeScore_desc_trans nodeScore_desc_total (scoredChildren table node player)
  have hsplit : getChildNodes table node player ++
      ((scoredChildren table node player).mergeSort
        (fun a b => decide (b.score ≤ a.score))).drop BRANCHING_FACTOR_THRESHOLD =
      (scoredChildren table node player).mergeSort
        (fun a b => decide (b.score ≤ a.score)) := by
    rw [getChildNodes]
    exact List.take_append_drop _ _
  refine ⟨?_, ?_, ?_⟩
  · rw [getChildNodes]
    exact List.length_take_le _ _
  · rw [getChildNodes]
    have := hsorted.sublist (List.take_sublist BRANCHING_FACTOR_THRESHOLD _)
    exact this.imp (fun h => of_decide_eq_true h)
  · refine ⟨((scoredChildren table node player).mergeSort
        (fun a b => decide (b.score ≤ a.score))).drop BRANCHING_FACTOR_THRESHOLD, ?_, ?_⟩
    · rw [hsplit]
      exact List.mergeSort_perm _ _
    · have hpw := hsplit ▸ hsorted
      have := (List.pairwise_append.mp hpw).2.2
      exact fun x hx y hy => of_decide_eq_true (this x hx y hy)

theorem plainLoopMax_ge_init {σ : Type} (v : σ → Int) :
    ∀ (cs : List σ) (best : Int), best ≤ plainLoopMax v cs best := by
  intro cs
  induction cs with
  | nil => intro best; exact le_rfl
  | cons c cs ih => intro best; exact le_trans (le_max_left best (v c)) (ih _)

theorem plainLoopMax_mono {σ : Type} (v : σ → Int) :
    ∀ (cs : List σ) {x y : Int}, x ≤ y → plainLoopMax v cs x ≤ plainLoopMax v cs y := by
  intro cs
  induction cs with
  | nil => intro x y h; exact h
  | cons c cs ih => intro x y h; exact ih (max_le_max h le_rfl)

theorem plainLoopMax_init_max {σ : Type} (v : σ → Int) :
    ∀ (cs : List σ) (x y : Int),
      plainLoopMax v cs (max x y) = max x (plainLoopMax v cs y) := by
  intro cs
  induction cs with
  | nil => intro x y; rfl
  | cons c cs ih =>
    intro x y
    show plainLoopMax v cs (max (max x y) (v c)) = max x (plainLoopMax v cs (max y (v c)))
    rw [max_assoc, ih]

theorem plainLoopMax_le {σ : Type} (v : σ → Int) :
    ∀ (cs : List σ) (best B : Int), best ≤ B → (∀ c ∈ cs, v c ≤ B) →
      plainLoopMax v cs best ≤ B := by
  intro cs
  induction cs with
  | nil => intro best B h _; exact h
  | cons c cs ih =>
    intro best B h hall
    exact ih _ _ (max_le h (hall c (List.mem_cons_self c cs)))
      (fun c' hc' => hall c' (List.mem_cons_of_mem c hc'))

theorem plainLoopMin_le_init {σ : Type} (v : σ → Int) :
    ∀ (cs : List σ) (best : Int), plainLoopMin v cs best ≤ best := by
  intro cs
  induction cs with
  | nil => intro best; exact le_rfl
  | cons c cs ih => intro best; exact le_trans (ih _) (min_le_left best (v c))

theorem plainLoopMin_mono {σ : Type} (v : σ → Int) :
    ∀ (cs : List σ) {x y : Int}, x ≤ y → plainLoopMin v cs x ≤ plainLoopMin v cs y := by
  intro cs
  induction cs with
  | nil => intro x y h; exact h
  | cons c cs ih => intro x y h; exact ih (min_le_min h le_rfl)

theorem plainLoopMin_init_min {σ : Type} (v : σ → Int) :
    ∀ (cs : List σ) (x y : Int),
      plainLoopMin v cs (min x y) = min x (plainLoopMin v cs y) := by
  intro cs
  induction cs with
  | nil => intro x y; rfl
  | cons c cs ih =>
    intro x y
    show plainLoopMin v cs (min (min x y) (v c)) = min x (plainLoopMin v cs (min y (v c)))
    rw [min_assoc, ih]

theorem plainLoopMin_ge {σ : Type} (v : σ → Int) :
    ∀ (cs : List σ) (best B : Int), B ≤ best → (∀ c ∈ cs, B ≤ v c) →
      B ≤ plainLoopMin v cs best := by
  intro cs
  induction cs with
  | nil => intro best B h _; exact h
  | cons c cs ih =>
    intro best B h hall
    exact ih _ _ (le_min h (hall c (List.mem_cons_self c cs)))
      (fun c' hc' => hall c' (List.mem_cons_of_mem c hc'))

theorem abLoopMax_spec {σ : Type} (rec : σ → Int → Int → Int) (v : σ → Int) (b : Int) :
    ∀ cs : List σ,
      (∀ c ∈ cs, ∀ a' : Int, IMIN ≤ a' → a' < b →
        (rec c a' b ≤ a' → v c ≤ rec c a' b) ∧
        (b ≤ rec c a' b → rec c a' b ≤ v c) ∧
        (a' < rec c a' b → rec c a' b < b → rec c a' b = v c)) →
      ∀ a best : Int, IMIN ≤ a → a < b → IMIN ≤ best → best < b →
        best ≤ abLoopMax rec cs best (max a best) b ∧
        (abLoopMax rec cs best (max a best) b ≤ a →
          plainLoopMax v cs best ≤ abLoopMax rec cs best (max a best) b) ∧
        (b ≤ abLoopMax rec cs best (max a best) b →
          abLoopMax rec cs best (max a best) b ≤ plainLoopMax v cs best) ∧
        (a < abLoopMax rec cs best (max a best) b →
          abLoopMax rec cs best (max a best) b < b →
          abLoopMax rec cs best (max a best) b = plainLoopMax v cs best) := by
  intro cs
  induction cs with
  | nil =>
    intro _ a best ha hab hbmin hbb
    exact ⟨le_rfl, fun _ => le_rfl, fun hge => absurd hge (not_le.mpr hbb), fun _ _ => rfl⟩
  | cons c cs ih =>
    intro hIH a best ha hab hbmin hbb
    have hchild := hIH c (List.mem_cons_self c cs) (max a best)
      (le_trans ha (le_max_left a best)) (max_lt hab hbb)
    show best ≤ abLoopMax rec (c :: cs) best (max a best) b ∧ _
    simp only [abLoopMax]
    set rc := rec c (max a best) b with hrc_def
    by_cases hpr : b ≤ max best rc
    · rw [if_pos hpr]
      have hbrc : b ≤ rc := by
        rcases le_or_lt b rc with h | h
        · exact h
        · exact absurd hpr (not_le.mpr (max_lt hbb h))
      refine ⟨le_max_left _ _, ?_, ?_, ?_⟩
      · intro hle
        exact absurd (le_trans hbrc (le_trans (le_max_right best rc) hle))
          (not_le.mpr hab)
      · intro _
        show max best rc ≤ plainLoopMax v cs (max best (v c))
        refine le_trans (max_le_max le_rfl (hchild.2.1 hbrc)) ?_
        exact plainLoopMax_ge_init v cs _
      · intro _ hlt
        exact absurd hpr (not_le.mpr hlt)
    · rw [if_neg hpr]
      push_neg at hpr
      have hrcb : rc < b := lt_of_le_of_lt (le_max_right best rc) hpr
      have hbest1min : IMIN ≤ max best rc := le_trans hbmin (le_max_left best rc)
      have halpha : max (max a best) (max best rc) = max a (max best rc) := by
        rw [max_assoc]
        congr 1
        exact max_eq_right (le_max_left best rc)
      rw [halpha]
      obtain ⟨hA, hB, hC, hD⟩ := ih (fun c' hc' => hIH c' (List.mem_cons_of_mem c hc'))
        a (max best rc) ha hab hbest1min hpr
      have hvc : v c ≤ rc := by
        rcases le_or_lt rc (max a best) with hle | hgt
        · exact hchild.1 hle
        · exact le_of_eq (hchild.2.2 hgt hrcb).symm
      have hm_le : plainLoopMax v cs (max best (v c)) ≤ plainLoopMax v cs (max best rc) :=
        plainLoopMax_mono v cs (max_le_max le_rfl hvc)
      have hm1_eq : plainLoopMax v cs (max best rc) =
          max (max best rc) (plainLoopMax v cs (max best (v c))) := by
        conv_lhs => rw [show max best rc = max (max best rc) (max best (v c)) from
          (max_eq_left (max_le_max le_rfl hvc)).symm]
        exact plainLoopMax_init_max v cs _ _
      refine ⟨le_trans (le_max_left best rc) hA, ?_, ?_, ?_⟩
      · intro hle
        exact le_trans hm_le (hB hle)
      · intro hge
        have h1 := hC hge
        rw [hm1_eq] at h1
        rcases le_total (plainLoopMax v cs (max best (v c))) (max best rc) with h2 | h2
        · rw [max_eq_left h2] at h1
          exact absurd (lt_of_le_of_lt h1 hpr) (not_lt.mpr hge)
        · rwa [max_eq_right h2] at h1
      · intro hgt hlt
        have h1 := hD hgt hlt
        rw [hm1_eq] at h1
        rcases lt_or_le (max best rc)
            (abLoopMax rec cs (max best rc) (max a (max best rc)) b) with hcase | hcase
        · rcases max_cases (max best rc) (plainLoopMax v cs (max best (v c))) with
            ⟨he, _⟩ | ⟨he, _⟩
          · rw [he] at h1
            exact absurd h1 (ne_of_gt hcase)
          · rw [he] at h1
            exact h1
        · have hreq : abLoopMax rec cs (max best rc) (max a (max best rc)) b = max best rc :=
            le_antisymm hcase hA
          have hmle : max best rc ≤ plainLoopMax v cs (max best (v c)) := by
            rcases le_total rc best with hrb | hbr
            · rw [max_eq_left hrb]
              exact le_trans (le_max_left best (v c)) (plainLoopMax_ge_init v cs _)
            · rcases lt_or_eq_of_le hbr with hlt2 | heq2
              · rw [max_eq_right hbr]
                have harc : a < rc := by
                  have := hgt
                  rw [hreq, max_eq_right hbr] at this
                  exact this
                have hrc_eq : rc = v c := hchild.2.2 (max_lt harc hlt2) hrcb
                rw [hrc_eq]
                exact le_trans (le_max_right best (v c)) (plainLoopMax_ge_init v cs _)
              · rw [← heq2, max_self]
                exact le_trans (le_max_left best (v c)) (plainLoopMax_ge_init v cs _)
          rw [hreq] at h1
          exact hreq.trans (le_antisymm hmle (max_eq_left_iff.mp h1.symm))

theorem abLoopMin_spec {σ : Type} (rec : σ → Int → Int → Int) (v : σ → Int) (a : Int) :
    ∀ cs : List σ,
      (∀ c ∈ cs, ∀ b' : Int, a < b' → b' ≤ IMAX →
        (rec c a b' ≤ a → v c ≤ rec c a b') ∧
        (b' ≤ rec c a b' → rec c a b' ≤ v c) ∧
        (a < rec c a b' → rec c a b' < b' → rec c a b' = v c)) →
      ∀ b best : Int, b ≤ IMAX → a < b → best ≤ IMAX → a < best →
        abLoopMin rec cs best a (min b best) ≤ best ∧
        (abLoopMin rec cs best a (min b best) ≤ a →
          plainLoopMin v cs best ≤ abLoopMin rec cs best a (min b best)) ∧
        (b ≤ abLoopMin rec cs best a (min b best) →
          abLoopMin rec cs best a (min b best) ≤ plainLoopMin v cs best) ∧
        (a < abLoopMin rec cs best a (min b best) →
          abLoopMin rec cs best a (min b best) < b →
          abLoopMin rec cs best a (min b best) = plainLoopMin v cs best) := by
  intro cs
  induction cs with
  | nil =>
    intro _ b best hb hab hbmax habest
    exact ⟨le_rfl, fun _ => le_rfl, fun _ => le_rfl, fun _ _ => rfl⟩
  | cons c cs ih =>
    intro hIH b best hb hab hbmax habest
    have hchild := hIH c (List.mem_cons_self c cs) (min b best)
      (lt_min hab habest) (le_trans (min_le_left b best) hb)
    show abLoopMin rec (c :: cs) best a (min b best) ≤ best ∧ _
    simp only [abLoopMin]
    set rc := rec c a (min b best) with hrc_def
    by_cases hpr : min best rc ≤ a
    · rw [if_pos hpr]
      have harc : rc ≤ a := by
        rcases le_or_lt rc a with h | h
        · exact h
        · exact absurd hpr (not_le.mpr (lt_min habest h))
      refine ⟨min_le_left _ _, ?_, ?_, ?_⟩
      · intro _
        show plainLoopMin v cs (min best (v c)) ≤ min best rc
        refine le_trans (plainLoopMin_le_init v cs _) ?_
        exact min_le_min le_rfl (hchild.1 harc)
      · intro hge
        exact absurd (le_trans hge hpr) (not_le.mpr hab)
      · intro hgt _
        exact absurd hgt (not_lt.mpr hpr)
    · rw [if_neg hpr]
      push_neg at hpr
      have harc : a < rc := lt_of_lt_of_le hpr (min_le_right best rc)
      have hbest1max : min best rc ≤ IMAX := le_trans (min_le_left best rc) hbmax
      have hbeta : min (min b best) (min best rc) = min b (min best rc) := by
        rw [min_assoc]
        congr 1
        exact min_eq_right (min_le_left best rc)
      rw [hbeta]
      obtain ⟨hA, hB, hC, hD⟩ := ih (fun c' hc' => hIH c' (List.mem_cons_of_mem c hc'))
        b (min best rc) hb hab hbest1max hpr
      have hvc : rc ≤ v c := by
        rcases le_or_lt (min b best) rc with hle | hgt2
        · exact hchild.2.1 hle
        · exact le_of_eq (hchild.2.2 harc hgt2)
      have hm_le : plainLoopMin v cs (min best rc) ≤ plainLoopMin v cs (min best (v c)) :=
        plainLoopMin_mono v cs (min_le_min le_rfl hvc)
      have hm1_eq : plainLoopMin v cs (min best rc) =
          min (min best rc) (plainLoopMin v cs (min best (v c))) := by
        conv_lhs => rw [show min best rc = min (min best rc) (min best (v c)) from
          (min_eq_left (min_le_min le_rfl hvc)).symm]
        exact plainLoopMin_init_min v cs _ _
      refine ⟨le_trans hA (min_le_left best rc), ?_, ?_, ?_⟩
      · intro hle
        have h1 := hB hle
        rw [hm1_eq] at h1
        rcases le_total (plainLoopMin v cs (min best (v c))) (min best rc) with h2 | h2
        · rwa [min_eq_right h2] at h1
        · rw [min_eq_left h2] at h1
          exact absurd (lt_of_lt_of_le hpr (le_trans h1 hle)) (lt_irrefl a)
      · intro hge
        exact le_trans (hC hge) hm_le
      · intro hgt hlt
        have h1 := hD hgt hlt
        rw [hm1_eq] at h1
        rcases lt_or_le (abLoopMin rec cs (min best rc) a (min b (min best rc)))
            (min best rc) with hcase | hcase
        · rcases min_cases (min best rc) (plainLoopMin v cs (min best (v c))) with
            ⟨he, _⟩ | ⟨he, _⟩
          · rw [he] at h1
            exact absurd h1 (ne_of_lt hcase)
          · rw [he] at h1
            exact h1
        · have hreq : abLoopMin rec cs (min best rc) a (min b (min best rc)) = min best rc :=
            le_antisymm hA hcase
          have hmle : plainLoopMin v cs (min best (v c)) ≤ min best rc := by
            rcases le_total best rc with hbr | hrb
            · rw [min_eq_left hbr]
              exact le_trans (plainLoopMin_le_init v cs _) (min_le_left best (v c))
            · rcases lt_or_eq_of_le hrb with hlt2 | heq2
              · rw [min_eq_right hrb]
                have hrcb2 : rc < b := by
                  have := hlt
                  rw [hreq, min_eq_right hrb] at this
                  exact this
                have hrc_eq : rc = v c := hchild.2.2 harc (lt_min hrcb2 hlt2)
                rw [hrc_eq]
                exact le_trans (plainLoopMin_le_init v cs _) (min_le_right best (v c))
              · rw [heq2, min_self]
                exact le_trans (plainLoopMin_le_init v cs _) (min_le_left best (v c))
          rw [hreq] at h1
          exact hreq.trans (le_antisymm (min_eq_left_iff.mp h1.symm) hmle)

theorem minimaxAB_spec {σ : Type} (M : SearchModel σ) :
    ∀ (d : Nat) (s : σ) (maxi : Bool) (a b : Int), IMIN ≤ a → a < b → b ≤ IMAX →
      (minimaxAB M s d a b maxi ≤ a →
        minimaxPlain M s d maxi ≤ minimaxAB M s d a b maxi) ∧
      (b ≤ minimaxAB M s d a b maxi →
        minimaxAB M s d a b maxi ≤ minimaxPlain M s d maxi) ∧
      (a < minimaxAB M s d a b maxi → minimaxAB M s d a b maxi < b →
        minimaxAB M s d a b maxi = minimaxPlain M s d maxi) := by
  intro d
  induction d with
  | zero =>
    intro s maxi a b _ _ _
    have heq : minimaxAB M s 0 a b maxi = minimaxPlain M s 0 maxi := by
      rw [minimaxAB, minimaxPlain]
    rw [heq]
    exact ⟨fun _ => le_rfl, fun _ => le_rfl, fun _ _ => rfl⟩
  | succ d ih =>
    intro s maxi a b ha hab hb
    cases hev : M.eval s maxi with
    | Won =>
      have heq : minimaxAB M s (d + 1) a b maxi = minimaxPlain M s (d + 1) maxi := by
        rw [minimaxAB, minimaxPlain, hev]
      rw [heq]
      exact ⟨fun _ => le_rfl, fun _ => le_rfl, fun _ _ => rfl⟩
    | Lost =>
      have heq : minimaxAB M s (d + 1) a b maxi = minimaxPlain M s (d + 1) maxi := by
        rw [minimaxAB, minimaxPlain, hev]
      rw [heq]
      exact ⟨fun _ => le_rfl, fun _ => le_rfl, fun _ _ => rfl⟩
    | Score n =>
      cases maxi with
      | true =>
        have hr : minimaxAB M s (d + 1) a b true =
            abLoopMax (fun c a' b' => minimaxAB M c d a' b' false)
              (M.children s true) IMIN a b := by
          rw [minimaxAB, hev]
          rfl
        have hm : minimaxPlain M s (d + 1) true =
            plainLoopMax (fun c => minimaxPlain M c d false) (M.children s true) IMIN := by
          rw [minimaxPlain, hev]
          rfl
        rw [hr, hm]
        have hspec := abLoopMax_spec (fun c a' b' => minimaxAB M c d a' b' false)
          (fun c => minimaxPlain M c d false) b (M.children s true)
          (fun c _ a' ha' hab' => ih c false a' b ha' hab' hb)
          a IMIN ha hab le_rfl (lt_of_le_of_lt ha hab)
        rw [show max a IMIN = a from max_eq_left ha] at hspec
        exact ⟨hspec.2.1, hspec.2.2.1, hspec.2.2.2⟩
      | false =>
        have hr : minimaxAB M s (d + 1) a b false =
            abLoopMin (fun c a' b' => minimaxAB M c d a' b' true)
              (M.children s false) IMAX a b := by
          rw [minimaxAB, hev]
          rfl
        have hm : minimaxPlain M s (d + 1) false =
            plainLoopMin (fun c => minimaxPlain M c d true) (M.children s false) IMAX := by
          rw [minimaxPlain, hev]
          rfl
        rw [hr, hm]
        have hspec := abLoopMin_spec (fun c a' b' => minimaxAB M c d a' b' true)
          (fun c => minimaxPlain M c d true) a (M.children s false)
          (fun c _ b' hab' hb' => ih c true a b' ha hab' hb')
          b IMAX hb hab le_rfl (lt_of_lt_of_le hab hb)
        rw [show min b IMAX = b from min_eq_left hb] at hspec
        exact ⟨hspec.2.1, hspec.2.2.1, hspec.2.2.2⟩

theorem minimaxPlain_bounded {σ : Type} (M : SearchModel σ)
    (HB : ∀ (s : σ) (mx : Bool) (n : Int), M.eval s mx = .Score n → -IMAX ≤ n ∧ n ≤ IMAX) :
    ∀ (d : Nat) (s : σ) (maxi : Bool),
      IMIN ≤ minimaxPlain M s d maxi ∧ minimaxPlain M s d maxi ≤ IMAX := by
  have hminmax : IMIN ≤ IMAX := by decide
  have hminneg : IMIN ≤ -IMAX := by decide
  intro d
  induction d with
  | zero =>
    intro s maxi
    cases hev : M.eval s maxi with
    | Won =>
      rw [minimaxPlain, hev]
      cases maxi <;> simp [hminmax]
    | Lost =>
      rw [minimaxPlain, hev]
      cases maxi <;> simp [hminmax]
    | Score n =>
      obtain ⟨h1, h2⟩ := HB s maxi n hev
      rw [minimaxPlain, hev]
      cases maxi <;> simp <;> constructor <;> omega
  | succ d ih =>
    intro s maxi
    cases hev : M.eval s maxi with
    | Won =>
      rw [minimaxPlain, hev]
      cases maxi <;> simp [hminmax]
    | Lost =>
      rw [minimaxPlain, hev]
      cases maxi <;> simp [hminmax]
    | Score n =>
      cases maxi with
      | true =>
        rw [minimaxPlain, hev]
        constructor
        · exact plainLoopMax_ge_init _ _ _
        · exact plainLoopMax_le _ _ _ _ hminmax (fun c _ => (ih c false).2)
      | false =>
        rw [minimaxPlain, hev]
        constructor
        · exact plainLoopMin_ge _ _ _ _ hminmax (fun c _ => (ih c true).1)
        · exact plainLoopMin_le_init _ _ _

theorem minimaxAB_eq_plain {σ : Type} (M : SearchModel σ)
    (HB : ∀ (s : σ) (mx : Bool) (n : Int), M.eval s mx = .Score n → -IMAX ≤ n ∧ n ≤ IMAX)
    (s : σ) (d : Nat) (maxi : Bool) :
    minimaxAB M s d IMIN IMAX maxi = minimaxPlain M s d maxi := by
  have hspec := minimaxAB_spec M d s maxi IMIN IMAX le_rfl (by decide) le_rfl
  have hbnd := minimaxPlain_bounded M HB d s maxi
  rcases le_or_lt (minimaxAB M s d IMIN IMAX maxi) IMIN with h1 | h1
  · exact le_antisymm (le_trans h1 hbnd.1) (hspec.1 h1)
  · rcases le_or_lt IMAX (minimaxAB M s d IMIN IMAX maxi) with h2 | h2
    · exact le_antisymm (hspec.2.1 h2) (le_trans hbnd.2 h2)
    · exact hspec.2.2 h1 h2

theorem threat_value_bounds (t : Threat) : 0 ≤ t.value ∧ t.value ≤ 500000 := by
  cases t <;> exact ⟨by decide, by decide⟩

theorem evaluateAxisGo_nil (player opponent : Bitboard) (axis : Direction)
    (score : Int) (sct : Option (Threat × Bool)) (nt : Bool) :
    evaluateAxisGo player opponent axis [] score sct nt = .Score score := rfl

theorem evaluateAxisGo_cons (player opponent : Bitboard) (axis : Direction)
    (i : Nat) (rest : List Nat) (score : Int) (sct : Option (Threat × Bool)) (nt : Bool) :
    evaluateAxisGo player opponent axis (i :: rest) score sct nt =
      match processIndex player opponent axis i sct nt with
      | .error true => .Won
      | .error false => .Lost
      | .ok (sct1, nt1) =>
        if nt1 || i == BIT_SIZE then
          match sct1 with
          | some (t, isPlayer) =>
            evaluateAxisGo player opponent axis rest
              (if isPlayer then score + t.value else score - t.value) none nt1
          | none => evaluateAxisGo player opponent axis rest score none nt1
        else
          evaluateAxisGo player opponent axis rest score sct1 nt1 := rfl

theorem evaluateAxisGo_score_abs (player opponent : Bitboard) (axis : Direction) :
    ∀ (idxs : List Nat) (score : Int) (sct : Option (Threat × Bool)) (nt : Bool) (s : Int),
      evaluateAxisGo player opponent axis idxs score sct nt = .Score s →
      |s| ≤ |score| + 500000 * idxs.length := by
  intro idxs
  induction idxs with
  | nil =>
    intro score sct nt s h
    injection h with h
    subst h
    simp
  | cons i rest ih =>
    intro score sct nt s h
    have hstep : ∀ (score1 : Int) (sct1 : Option (Threat × Bool)) (nt1 : Bool),
        evaluateAxisGo player opponent axis rest score1 sct1 nt1 = .Score s →
        |score1| ≤ |score| + 500000 →
        |s| ≤ |score| + 500000 * (i :: rest).length := by
      intro score1 sct1 nt1 h1 hs1
      have := ih score1 sct1 nt1 s h1
      rw [List.length_cons]
      have hlen : (500000 : Int) * (rest.length + 1) = 500000 * rest.length + 500000 := by ring
      push_cast at *
      omega
    rw [evaluateAxisGo_cons] at h
    split at h
    · exact absurd h (by simp)
    · exact absurd h (by simp)
    · rename_i sct1 nt1
      split at h
      · split at h
        · rename_i t isPlayer
          obtain ⟨hv0, hv5⟩ := threat_value_bounds t
          have habs : |t.value| = t.value := abs_of_nonneg hv0
          refine hstep _ _ _ h ?_
          cases isPlayer
          · simp only [Bool.false_eq_true, if_false]
            calc |score - t.value| ≤ |score| + |t.value| := abs_sub score t.value
              _ ≤ |score| + 500000 := by omega
          · simp only [if_true]
            calc |score + t.value| ≤ |score| + |t.value| := abs_add score t.value
              _ ≤ |score| + 500000 := by omega
        · exact hstep _ _ _ h (by simp)
      · exact hstep _ _ _ h (by simp)

theorem evaluateAxis_score_abs (player opponent : Bitboard) (axis : Direction) (s : Int)
    (h : evaluateAxis player opponent axis = .Score s) : |s| ≤ 190500000 := by
  have := evaluateAxisGo_score_abs player opponent axis
    (List.range (BIT_SIZE + 1)) 0 none true s h
  simpa [BIT_SIZE] using this

theorem evaluatePlayerGo_score_abs (player opponent : Bitboard) :
    ∀ (axs : List Direction) (total : Int) (s : Int),
      evaluatePlayerGo player opponent axs total = .Score s →
      |s| ≤ |total| + 190500000 * axs.length := by
  intro axs
  induction axs with
  | nil =>
    intro total s h
    injection h with h
    subst h
    simp
  | cons ax rest ih =>
    intro total s h
    rw [evaluatePlayerGo] at h
    cases hax : evaluateAxis player opponent ax with
    | Won => rw [hax] at h; simp at h
    | Lost => rw [hax] at h; simp at h
    | Score s1 =>
      rw [hax] at h
      have h1 := ih (total + s1) s h
      have h2 := evaluateAxis_score_abs player opponent ax s1 hax
      have h3 : |total + s1| ≤ |total| + |s1| := abs_add total s1
      rw [List.length_cons]
      have : (190500000 : Int) * (rest.length + 1) = 190500000 * rest.length + 190500000 := by
        ring
      omega

theorem gomokuModel_score_bound (table : ZTable) :
    ∀ (g : Goban) (mx : Bool) (n : Int),
      (gomokuModel table).eval g mx = .Score n → -IMAX ≤ n ∧ n ≤ IMAX := by
  intro g mx n h
  have habs : |n| ≤ 762000000 := by
    have hev : ∃ a b : Bitboard, evaluatePlayer a b = .Score n := by
      cases mx with
      | true => exact ⟨g.white, g.black, h⟩
      | false => exact ⟨g.black, g.white, h⟩
    obtain ⟨a, b, hab⟩ := hev
    have := evaluatePlayerGo_score_abs a b scanAxes 0 n hab
    simpa [scanAxes] using this
  have hcap : (762000000 : Int) ≤ IMAX := by decide
  obtain ⟨h1, h2⟩ := abs_le.mp habs
  constructor <;> omega

/-- C3: for every board and every fixed search depth, the score returned by
the alpha-beta minimax over the full window equals the score returned by
the same recursion with the pruning breaks removed, expanding the same
ordered child lists produced by get_child_nodes. -/
theorem alphabeta_equals_unpruned (table : ZTable) (g : Goban) (depth : Nat)
    (maximizing : Bool) :
    minimaxAB (gomokuModel table) g depth IMIN IMAX maximizing =
      minimaxPlain (gomokuModel table) g depth maximizing :=
  minimaxAB_eq_plain (gomokuModel table) (gomokuModel_score_bound table) g depth maximizing

/-- C7 amended: Won and Lost evaluations are terminal for minimax, which
returns isize::MAX for Won and isize::MIN for Lost when maximizing, but the
mirrored values (isize::MIN for Won, isize::MAX for Lost) when minimizing;
at depth 0 a Score(n) evaluation returns n when maximizing and -n when
minimizing. -/
theorem minimax_terminal_cases (table : ZTable) (g : Goban) (depth : Nat)
    (alpha beta : Int) :
    (g.evaluate .Computer = .Won →
      minimaxAB (gomokuModel table) g depth alpha beta true = IMAX) ∧
    (g.evaluate .Opponent = .Won →
      minimaxAB (gomokuModel table) g depth alpha beta false = IMIN) ∧
    (g.evaluate .Computer = .Lost →
      minimaxAB (gomokuModel table) g depth alpha beta true = IMIN) ∧
    (g.evaluate .Opponent = .Lost →
      minimaxAB (gomokuModel table) g depth alpha beta false = IMAX) ∧
    (∀ n : Int, g.evaluate .Computer = .Score n →
      minimaxAB (gomokuModel table) g 0 alpha beta true = n) ∧
    (∀ n : Int, g.evaluate .Opponent = .Score n →
      minimaxAB (gomokuModel table) g 0 alpha beta false = -n) := by
  have hevT : (gomokuModel table).eval g true = g.evaluate .Computer := rfl
  have hevF : (gomokuModel table).eval g false = g.evaluate .Opponent := rfl
  refine ⟨?_, ?_, ?_, ?_, ?_, ?_⟩
  · intro h
    rw [minimaxAB, hevT, h]
    rfl
  · intro h
    rw [minimaxAB, hevF, h]
    rfl
  · intro h
    rw [minimaxAB, hevT, h]
    rfl
  · intro h
    rw [minimaxAB, hevF, h]
    rfl
  · intro n h
    rw [minimaxAB, hevT, h]
    show n * 1 = n
    exact mul_one n
  · intro n h
    rw [minimaxAB, hevF, h]
    show n * -1 = -n
    exact mul_neg_one n

theorem minimax_terminal_cases_witness :
    minimaxAB (gomokuModel table0) gFive 3 IMIN IMAX false = IMIN :=
  (minimax_terminal_cases table0 gFive 3 IMIN IMAX).2.1 (by decide)

/-- C7 is violated by the code: on a board whose evaluation for the
minimizing side is Won, minimax returns isize::MIN, the minimal - not the
maximal - score. -/
theorem minimax_minimizing_won_returns_min :
    Goban.evaluate gFive .Opponent = .Won ∧
    minimaxAB (gomokuModel table0) gFive 3 IMIN IMAX false = IMIN ∧
    IMIN ≠ IMAX := by
  refine ⟨by decide, by decide, by decide⟩

theorem mem_positionsOfBits (b : Bitboard) (p : Position) (hp : p ∈ positionsOfBits b) :
    b.testBit (p.row * (GOBAN_SIZE + 1) + p.col) = true ∧
    p.row < GOBAN_SIZE ∧ p.col < GOBAN_SIZE := by
  rw [positionsOfBits] at hp
  simp only [List.mem_filterMap, List.mem_range] at hp
  obtain ⟨i, hi, hf⟩ := hp
  split at hf
  · rename_i htb
    split at hf
    · exact absurd hf (by simp)
    · rename_i hskip
      push_neg at hskip
      injection hf with hf
      subst hf
      simp only [GOBAN_SIZE, BIT_SIZE] at *
      refine ⟨?_, by omega, by omega⟩
      have heq : i / (19 + 1) * (19 + 1) + (i - i / (19 + 1) * (19 + 1)) = i := by omega
      rw [heq]
      exact htb
  · exact absurd hf (by simp)

theorem full_board_no_candidates (g : Goban) (hfull : boardFull g) :
    g.getLimitedMoves 2 = [] := by
  by_contra hne
  obtain ⟨p, hp⟩ := List.exists_mem_of_ne_nil _ hne
  rw [Goban.getLimitedMoves] at hp
  obtain ⟨htb, hrow, hcol⟩ := mem_positionsOfBits _ p hp
  rw [Nat.testBit_land] at htb
  simp only [Bool.and_eq_true] at htb
  have hplayable := htb.2
  rw [bbNot, Nat.testBit_xor] at hplayable
  have hm : mask384.testBit (p.row * (GOBAN_SIZE + 1) + p.col) = true := by
    rw [mask384, STORAGE_BITS, Nat.testBit_two_pow_sub_one]
    simp only [GOBAN_SIZE] at *
    simp only [decide_eq_true_eq]
    omega
  rw [hm] at hplayable
  have hplayed : ((g.black ||| g.white) &&& mask384 &&& mask384).testBit
      (p.row * (GOBAN_SIZE + 1) + p.col) = false := by
    cases hpl : ((g.black ||| g.white) &&& mask384 &&& mask384).testBit
        (p.row * (GOBAN_SIZE + 1) + p.col) with
    | false => rfl
    | true => rw [hpl] at hplayable; exact absurd hplayable (by simp)
  rw [Nat.testBit_land, Nat.testBit_land, Nat.testBit_lor, hm, Bool.and_true,
    Bool.and_true] at hplayed
  have hb1 : g.black.testBit (p.row * (GOBAN_SIZE + 1) + p.col) = false :=
    (Bool.or_eq_false_iff.mp hplayed).1
  have hb2 : g.white.testBit (p.row * (GOBAN_SIZE + 1) + p.col) = false :=
    (Bool.or_eq_false_iff.mp hplayed).2
  have hget := hfull p.row hrow p.col hcol
  simp only [Goban.get] at hget
  rw [hb1, hb2] at hget
  exact hget (by simp)

theorem foldl_getBestMove_isSome (ms : List (Position × Int)) :
    ∀ x : Position × Int,
      (ms.foldl (fun acc pm =>
        match acc with
        | none => some pm
        | some best => if best.2 ≤ pm.2 then some pm else some best) (some x)).isSome = true := by
  induction ms with
  | nil => intro x; rfl
  | cons m ms ih =>
    intro x
    show (ms.foldl _ (if x.2 ≤ m.2 then some m else some x)).isSome = true
    by_cases h : x.2 ≤ m.2
    · rw [if_pos h]; exact ih m
    · rw [if_neg h]; exact ih x

theorem getBestMove_none_iff (ms : List (Position × Int)) :
    getBestMove ms = none ↔ ms = [] := by
  cases ms with
  | nil => simp [getBestMove]
  | cons m ms =>
    constructor
    · intro h
      exfalso
      have h1 : (List.foldl (fun acc pm =>
          match acc with
          | none => some pm
          | some best => if best.2 ≤ pm.2 then some pm else some best)
          (some m) ms).map (fun x => x.1) = none := h
      rw [Option.map_eq_none'] at h1
      have hs := foldl_getBestMove_isSome ms m
      rw [h1] at hs
      exact absurd hs (by simp)
    · intro h
      exact absurd h (by simp)

theorem getChildNodes_eq_nil_iff (table : ZTable) (g : Goban) (player : Player) :
    getChildNodes table g player = [] ↔ g.getLimitedMoves 2 = [] := by
  rw [getChildNodes, List.take_eq_nil_iff]
  constructor
  · intro h
    rcases h with h | h
    · exact absurd h (by decide)
    · have hlen := congrArg List.length h
      rw [(List.mergeSort_perm (scoredChildren table g player) _).length_eq] at hlen
      have hnil : scoredChildren table g player = [] := List.length_eq_zero.mp (by simpa using hlen)
      rw [scoredChildren] at hnil
      exact List.map_eq_nil_iff.mp hnil
  · intro h
    right
    have hnil : scoredChildren table g player = [] := by
      rw [scoredChildren, h]
      rfl
    rw [hnil]
    exact List.mergeSort_nil

/-- C8 is violated by the code: on the empty board play_computer_move finds
no candidate (the locality-limited move generator dilates the empty played
set to the empty set) and signals the fatal no-move condition even though
every cell, in particular (0, 0), is empty. -/
theorem empty_board_no_move_panic :
    playComputerMove table0 Goban.empty 2 = .error .noMoveFound ∧
    Goban.empty.get 0 0 = none := by
  constructor
  · have hch : getChildNodes table0 Goban.empty .Computer = [] :=
      (getChildNodes_eq_nil_iff table0 Goban.empty .Computer).mpr (by decide)
    have hunfold : playComputerMove table0 Goban.empty 2 =
        match getBestMove ((getChildNodes table0 Goban.empty .Computer).map (fun c =>
          (c.position, minimaxAB (gomokuModel table0) c.node (2 - 1) IMIN IMAX false))) with
        | some position =>
          match play table0 Goban.empty position .Computer with
          | (.ok st, g1) => .ok (g1, st)
          | (.error _, _) => .error .invalidMoveFound
        | none => .error .noMoveFound := by
      rw [playComputerMove, if_neg (by omega), if_neg (by omega)]
    rw [hunfold, hch]
    rfl
  · rfl

/-- C8 amended: for a valid depth, play_computer_move signals the fatal
no-move condition exactly when get_limited_moves(2) yields no candidate; a
full board has no candidate (so the fatal condition is signalled there),
but the converse direction of the original claim fails: the empty board
also has no candidate despite its empty cells. -/
theorem no_move_iff_no_candidate (table : ZTable) (g : Goban) (depth : Nat)
    (h2 : 2 ≤ depth) (he : depth % 2 = 0) :
    (playComputerMove table g depth = .error .noMoveFound ↔ g.getLimitedMoves 2 = []) ∧
    (boardFull g → g.getLimitedMoves 2 = []) := by
  refine ⟨?_, full_board_no_candidates g⟩
  have hunfold : playComputerMove table g depth =
      match getBestMove ((getChildNodes table g .Computer).map (fun c =>
        (c.position, minimaxAB (gomokuModel table) c.node (depth - 1) IMIN IMAX false))) with
      | some position =>
        match play table g position .Computer with
        | (.ok st, g1) => .ok (g1, st)
        | (.error _, _) => .error .invalidMoveFound
      | none => .error .noMoveFound := by
    rw [playComputerMove, if_neg (by omega), if_neg (by omega)]
  rw [hunfold]
  constructor
  · intro h
    by_contra hne
    have hch : getChildNodes table g .Computer ≠ [] :=
      fun hEq => hne ((getChildNodes_eq_nil_iff table g .Computer).mp hEq)
    have hmv : (getChildNodes table g .Computer).map (fun c =>
        (c.position, minimaxAB (gomokuModel table) c.node (depth - 1) IMIN IMAX false)) ≠
        [] := by
      simpa using hch
    cases hb : getBestMove ((getChildNodes table g .Computer).map (fun c =>
        (c.position, minimaxAB (gomokuModel table) c.node (depth - 1) IMIN IMAX false))) with
    | none => exact hmv (getBestMove_none_iff _ |>.mp hb)
    | some pos =>
      rw [hb] at h
      have h1 : (match play table g pos .Computer with
          | (.ok st, gg) => Except.ok (gg, st)
          | (.error _, _) => Except.error Panic.invalidMoveFound) =
          Except.error Panic.noMoveFound := h
      cases hp : play table g pos .Computer with
      | mk res g1 =>
        rw [hp] at h1
        cases res with
        | ok st => exact absurd h1 (by simp)
        | error e => exact absurd h1 (by simp)
  · intro h
    have hch : getChildNodes table g .Computer = [] :=
      (getChildNodes_eq_nil_iff table g .Computer).mpr h
    rw [hch]
    rfl

theorem no_move_iff_no_candidate_witness :
    ((playComputerMove table0 Goban.empty 2 = .error .noMoveFound ↔
        Goban.empty.getLimitedMoves 2 = []) ∧
      (boardFull Goban.empty → Goban.empty.getLimitedMoves 2 = [])) ∧
    gFull.getLimitedMoves 2 = [] :=
  ⟨no_move_iff_no_candidate table0 Goban.empty 2 (by omega) rfl,
   (no_move_iff_no_candidate table0 gFull 2 (by omega) rfl).2
     (by unfold boardFull GOBAN_SIZE; decide)⟩

end GomokuSpec
